import Mathlib

/-!
Verification of the tokenization core of `pytext/utils/torch.py`:
the UTF-8 character segmenter `utf8_chars`, the `Vocabulary` lookups, and
the `BPE` byte-pair-encoding merge algorithm.

Strings manipulated by the tokenizer are modelled as lists of byte values
(`Bstr`); concatenation of strings is list append.  A vocabulary / priority
table (a Python dict) is modelled as a function `Bstr → Option Int`
(`dict.get`), and the example table from the BPE docstring is given as a
concrete such function below.
-/

namespace Pytext

/-- A (byte) string: TorchScript strings are indexed and sliced bytewise. -/
abbrev Bstr := List Nat

/-- Width classification of a non-ASCII lead byte, from the comparison
chain in `utf8_chars` (`byte < 0b11100000 → 2`, `< 0b11110000 → 3`, ...). -/
def charWidth (byte : Nat) : Nat :=
  if byte < 0xE0 then 2
  else if byte < 0xF0 then 3
  else if byte < 0xF8 then 4
  else if byte < 0xFC then 5
  else if byte < 0xFE then 6
  else if byte < 0xFF then 7
  else 8

/-- The scanning loop of `utf8_chars`, structured over a step counter so the
recursion is structural: each loop iteration consumes at least one byte, so
`s.length` steps always suffice and the `0` case below is never reached from
`utf8_chars` itself (proved in `utf8_go_join`).  At the current start byte:
an ASCII byte is a one-byte character, otherwise `charWidth` many bytes
(clamped at the end of the string, as a Python slice is) form the character.
The slice `s[i : i + num_bytes]` of the remainder `b :: rest` is written
`b :: rest.take (charWidth b - 1)`. -/
def utf8_go : Nat → Bstr → List Bstr
  | _, [] => []
  | 0, _ :: _ => []
  | fuel + 1, b :: rest =>
    if b < 0x80 then
      [b] :: utf8_go fuel rest
    else
      (b :: rest.take (charWidth b - 1)) :: utf8_go fuel (rest.drop (charWidth b - 1))

/-- `utf8_chars(s)`: split `s` into its UTF-8 character substrings. -/
def utf8_chars (s : Bstr) : List Bstr := utf8_go s.length s

/-- The trailing-trim loop of `bpe_token`
(`while len(parts) > 0 and self.vocab.get(parts[-1] + self.eow) is None:
parts.pop()`), acting on the reversed part list: popping from the end of
`parts` is dropping from the front of `parts.reverse`. -/
def trimRev (vocab : Bstr → Option Int) (eow : Bstr) : List Bstr → List Bstr
  | [] => []
  | p :: rest =>
    if (vocab (p ++ eow)).isSome then p :: rest else trimRev vocab eow rest

/-- The trailing-trim loop of `bpe_token` on `parts` itself. -/
def trimLoop (vocab : Bstr → Option Int) (eow : Bstr) (parts : List Bstr) : List Bstr :=
  (trimRev vocab eow parts.reverse).reverse

/-- `parts[-1] += self.eow`: append the EOW marker to the last element. -/
def appendEowLast (eow : Bstr) : List Bstr → List Bstr
  | [] => []
  | [p] => [p ++ eow]
  | p :: rest => p :: appendEowLast eow rest

/-- The removal loop of `bpe_token` (`while i < len(parts): pop parts[i] if
not in vocab else i += 1`): a left-to-right pass keeping exactly the
elements that are vocab keys. -/
def filterLoop (vocab : Bstr → Option Int) : List Bstr → List Bstr
  | [] => []
  | p :: rest =>
    if (vocab p).isSome then p :: filterLoop vocab rest else filterLoop vocab rest

/-- The sentinel compared against vocab scores in the merge loop. -/
def NOT_IN_VOCAB : Int := -1

/-- `self.vocab.get(parts[pair_index] + parts[pair_index + 1], NOT_IN_VOCAB)`:
the score of the adjacent pair at `i`, defaulting to the sentinel. -/
def pairPriority (vocab : Bstr → Option Int) (parts : List Bstr) (i : Nat) : Int :=
  (vocab (parts.getD i [] ++ parts.getD (i + 1) [])).getD NOT_IN_VOCAB

/-- One step of the scan for the best pair: update `(max_pair_index,
max_pair_value)` when `pair_value > max_pair_value` (strict). -/
def scanStep (vocab : Bstr → Option Int) (parts : List Bstr)
    (acc : Nat × Int) (pair_index : Nat) : Nat × Int :=
  if pairPriority vocab parts pair_index > acc.2 then
    (pair_index, pairPriority vocab parts pair_index)
  else acc

/-- The `for pair_index in range(len(parts) - 1)` scan of the merge loop,
starting from `(0, NOT_IN_VOCAB)`. -/
def scanPairs (vocab : Bstr → Option Int) (parts : List Bstr) : Nat × Int :=
  (List.range (parts.length - 1)).foldl (scanStep vocab parts) (0, NOT_IN_VOCAB)

/-- `parts = parts[:max_pair_index] + [p1 + p2] + parts[max_pair_index + 2:]`. -/
def mergeAt (parts : List Bstr) (m : Nat) : List Bstr :=
  parts.take m ++ [parts.getD m [] ++ parts.getD (m + 1) []] ++ parts.drop (m + 2)

/-- The greedy merge loop of `bpe_token`, with an explicit iteration bound
(`fuel`).  Each iteration with more than one part scans all adjacent pairs;
if the best value is the sentinel it stops, otherwise it merges the best
pair and continues.  Since each merge shrinks `parts` by one element,
`parts.length` iterations always suffice (proved below), so `mergeLoop`
computes exactly the limit of the source's `while` loop. -/
def mergeLoopF (vocab : Bstr → Option Int) : Nat → List Bstr → List Bstr
  | 0, parts => parts
  | fuel + 1, parts =>
    if 1 < parts.length then
      if (scanPairs vocab parts).2 = NOT_IN_VOCAB then parts
      else mergeLoopF vocab fuel (mergeAt parts (scanPairs vocab parts).1)
    else parts

/-- The merge loop run to completion (fuel `parts.length` suffices). -/
def mergeLoop (vocab : Bstr → Option Int) (parts : List Bstr) : List Bstr :=
  mergeLoopF vocab parts.length parts

/-- `BPE.bpe_token(token)`: whole-word fast path, character split,
trailing trim, EOW attachment, unknown-character removal, greedy merges. -/
def bpe_token (vocab : Bstr → Option Int) (eow : Bstr) (token : Bstr) : List Bstr :=
  let full_token := token ++ eow
  if (vocab full_token).isSome then [full_token]
  else
    let parts := trimLoop vocab eow (utf8_chars token)
    if parts = [] then parts
    else mergeLoop vocab (filterLoop vocab (appendEowLast eow parts))

/-- `BPE.tokenize(tokens)`: concatenation of the per-token outputs. -/
def tokenize (vocab : Bstr → Option Int) (eow : Bstr) (tokens : List Bstr) : List Bstr :=
  (tokens.map (bpe_token vocab eow)).flatten

/-- Byte string of an ASCII Lean string literal, used to build the concrete
inputs of the docstring example. -/
def bs (s : String) : Bstr := s.data.map Char.toNat

/-- The priority table of the BPE docstring example, with the scores written
in the vocab file taken literally as the table values. -/
def exVocab (w : Bstr) : Option Int :=
  if w = bs "hello_EOW" then some 20
  else if w = bs "world_EOW" then some 18
  else if w = bs "th" then some 17
  else if w = bs "is_EOW" then some 16
  else if w = bs "bpe_EOW" then some 15
  else if w = bs "!" then some 14
  else if w = bs "h" then some 13
  else if w = bs "t" then some 6
  else if w = bs "s_EOW" then some 2
  else if w = bs "i" then some (-1)
  else if w = bs "ii" then some (-2)
  else none

/-- The end-of-word marker of the docstring example. -/
def exEow : Bstr := bs "_EOW"

/-- `list_membership(item, list)`: scan the whole list, setting the flag on
any hit (no early exit in the source). -/
def list_membership (item : Int) (l : List Int) : Bool :=
  l.foldl (fun item_present i => if item = i then true else item_present) false

/-- Python list subscripting `l[i]` as used by `self.vocab[...]`: a negative
index counts from the end; an index out of `[-len, len)` is an index error,
modelled as `none`. -/
def pyIndex (l : List String) (i : Int) : Option String :=
  let j : Int := if i < 0 then i + l.length else i
  if 0 ≤ j ∧ j < (l.length : Int) then l.get? j.toNat else none

/-- The token→index dict `{word: i for i, word in enumerate(vocab_list)}`:
assignment in enumeration order means a later occurrence of the same word
overwrites an earlier one, so `.get` returns the index of the last
occurrence; the recursion prefers the answer found in the tail. -/
def buildIdx : List String → Nat → String → Option Nat
  | [], _, _ => none
  | t :: rest, i, w =>
    match buildIdx rest (i + 1) w with
    | some j => some j
    | none => if t = w then some i else none

/-- `Vocabulary.lookup_indices_1d`: per value, `self.idx.get(value, self.unk_idx)`. -/
def lookup_indices_1d (vocab : List String) (unk_idx : Int) (values : List String) :
    List Int :=
  values.map (fun value =>
    match buildIdx vocab 0 value with
    | some j => (j : Int)
    | none => unk_idx)

/-- `Vocabulary.lookup_words_1d`: per id, skip it when it is in
`filter_token_list`; otherwise emit `self.vocab[value]` when
`value < len(self.vocab)` (note: no lower bound check in the source), and
otherwise `possible_unk_token` when given, else `self.vocab[self.unk_idx]`.
An index error anywhere makes the whole call fail (`none`). -/
def lookup_words_1d (vocab : List String) (unk_idx : Int) :
    List Int → List Int → Option String → Option (List String)
  | [], _, _ => some []
  | value :: rest, filter_token_list, possible_unk_token =>
    if list_membership value filter_token_list then
      lookup_words_1d vocab unk_idx rest filter_token_list possible_unk_token
    else
      match
        (if value < (vocab.length : Int) then pyIndex vocab value
         else
           match possible_unk_token with
           | some u => some u
           | none => pyIndex vocab unk_idx) with
      | none => none
      | some t =>
        (lookup_words_1d vocab unk_idx rest filter_token_list possible_unk_token).map
          (fun tail => t :: tail)

/-- Modelled from claim C5's words (not from the source): for each id, skip
it when it is in the filter list; emit `tokens[id]` when `0 <= id < len`;
otherwise emit the replacement when supplied, else the token at `unk_idx`. -/
def lookup_words_1d_claim (vocab : List String) (unk_idx : Int) :
    List Int → List Int → Option String → List String
  | [], _, _ => []
  | value :: rest, filter_token_list, possible_unk_token =>
    let tail := lookup_words_1d_claim vocab unk_idx rest filter_token_list possible_unk_token
    if list_membership value filter_token_list then tail
    else if 0 ≤ value ∧ value < (vocab.length : Int) then vocab.getD value.toNat "" :: tail
    else
      (match possible_unk_token with
       | some u => u
       | none => vocab.getD unk_idx.toNat "") :: tail

/-- Modelled from the amended claim C5 (not from the source): for each id,
skip it when it is in the filter list; emit `tokens[id]` when
`0 <= id < len`; emit `tokens[id + len]` when `-len <= id < 0` (Python
negative indexing — no unk fallback for in-range negative ids); fail when
`id < -len` (index error); and only when `id >= len` emit the replacement
when supplied, else the token at `unk_idx` (itself Python-indexed, failing
when out of range). -/
def lookup_words_1d_amended (vocab : List String) (unk_idx : Int) :
    List Int → List Int → Option String → Option (List String)
  | [], _, _ => some []
  | value :: rest, filter_token_list, possible_unk_token =>
    if list_membership value filter_token_list then
      lookup_words_1d_amended vocab unk_idx rest filter_token_list possible_unk_token
    else
      match
        (if 0 ≤ value ∧ value < (vocab.length : Int) then vocab.get? value.toNat
         else if -(vocab.length : Int) ≤ value ∧ value < 0 then
           vocab.get? (value + (vocab.length : Int)).toNat
         else if (vocab.length : Int) ≤ value then
           match possible_unk_token with
           | some u => some u
           | none =>
             if 0 ≤ unk_idx ∧ unk_idx < (vocab.length : Int) then vocab.get? unk_idx.toNat
             else if -(vocab.length : Int) ≤ unk_idx ∧ unk_idx < 0 then
               vocab.get? (unk_idx + (vocab.length : Int)).toNat
             else none
         else none) with
      | none => none
      | some t =>
        (lookup_words_1d_amended vocab unk_idx rest filter_token_list possible_unk_token).map
          (fun ws => t :: ws)

/-- A priority table with every negative-priority entry removed; claim C3
states the merge loop cannot tell the difference. -/
def nonnegRestrict (vocab : Bstr → Option Int) : Bstr → Option Int :=
  fun w =>
    match vocab w with
    | some n => if 0 ≤ n then some n else none
    | none => none

section MergeLemmas

variable (vocab : Bstr → Option Int) (parts : List Bstr)

theorem scanGo_spec (k : Nat) :
    -1 ≤ ((List.range k).foldl (scanStep vocab parts) (0, NOT_IN_VOCAB)).2 ∧
    (∀ i, i < k →
      pairPriority vocab parts i ≤
        ((List.range k).foldl (scanStep vocab parts) (0, NOT_IN_VOCAB)).2) ∧
    (((List.range k).foldl (scanStep vocab parts) (0, NOT_IN_VOCAB)).2 ≠ -1 →
      ((List.range k).foldl (scanStep vocab parts) (0, NOT_IN_VOCAB)).1 < k ∧
      pairPriority vocab parts
          ((List.range k).foldl (scanStep vocab parts) (0, NOT_IN_VOCAB)).1 =
        ((List.range k).foldl (scanStep vocab parts) (0, NOT_IN_VOCAB)).2 ∧
      ∀ j, j < ((List.range k).foldl (scanStep vocab parts) (0, NOT_IN_VOCAB)).1 →
        pairPriority vocab parts j <
          ((List.range k).foldl (scanStep vocab parts) (0, NOT_IN_VOCAB)).2) := by
  induction k with
  | zero =>
    simp only [List.range_zero, List.foldl_nil, NOT_IN_VOCAB]
    exact ⟨le_refl _, fun i hi => absurd hi (Nat.not_lt_zero i), fun h => absurd rfl h⟩
  | succ k ih =>
    rw [List.range_succ, List.foldl_append, List.foldl_cons, List.foldl_nil]
    obtain ⟨h1, h2, h3⟩ := ih
    rw [scanStep]
    by_cases hgt :
        pairPriority vocab parts k >
          ((List.range k).foldl (scanStep vocab parts) (0, NOT_IN_VOCAB)).2
    · rw [if_pos hgt]
      refine ⟨by simp; omega, ?_, ?_⟩
      · intro i hi
        rcases Nat.lt_succ_iff_lt_or_eq.mp hi with hik | hik
        · have := h2 i hik
          simp
          omega
        · subst hik
          simp
      · intro _
        refine ⟨Nat.lt_succ_self k, rfl, ?_⟩
        intro j hj
        have := h2 j hj
        simp at hj ⊢
        omega
    · rw [if_neg hgt]
      refine ⟨h1, ?_, ?_⟩
      · intro i hi
        rcases Nat.lt_succ_iff_lt_or_eq.mp hi with hik | hik
        · exact h2 i hik
        · subst hik
          omega
      · intro hne
        obtain ⟨hm, hpri, hlt⟩ := h3 hne
        exact ⟨Nat.lt_succ_of_lt hm, hpri, hlt⟩

theorem scanPairs_spec :
    -1 ≤ (scanPairs vocab parts).2 ∧
    (∀ i, i < parts.length - 1 →
      pairPriority vocab parts i ≤ (scanPairs vocab parts).2) ∧
    ((scanPairs vocab parts).2 ≠ -1 →
      (scanPairs vocab parts).1 < parts.length - 1 ∧
      pairPriority vocab parts (scanPairs vocab parts).1 = (scanPairs vocab parts).2 ∧
      ∀ j, j < (scanPairs vocab parts).1 →
        pairPriority vocab parts j < (scanPairs vocab parts).2) := by
  rw [scanPairs]
  exact scanGo_spec vocab parts (parts.length - 1)

theorem mergeAt_length (m : Nat) (h : m + 2 ≤ parts.length) :
    (mergeAt parts m).length = parts.length - 1 := by
  simp [mergeAt, List.length_append, List.length_take, List.length_drop]
  omega

theorem mergeLoopF_fuel :
    ∀ (fuel : Nat) (ps : List Bstr), ps.length - 1 ≤ fuel →
      mergeLoopF vocab fuel ps = mergeLoopF vocab (ps.length - 1) ps := by
  intro fuel
  induction fuel with
  | zero =>
    intro ps h
    rw [Nat.le_zero.mp h]
  | succ fuel ih =>
    intro ps h
    by_cases hlen : 1 < ps.length
    · have hl : ps.length - 1 = (ps.length - 2) + 1 := by omega
      rw [hl]
      simp only [mergeLoopF]
      rw [if_pos hlen, if_pos hlen]
      by_cases hs : (scanPairs vocab ps).2 = NOT_IN_VOCAB
      · rw [if_pos hs, if_pos hs]
      · rw [if_neg hs, if_neg hs]
        have hm : (scanPairs vocab ps).1 < ps.length - 1 :=
          ((scanPairs_spec vocab ps).2.2 (by simpa [NOT_IN_VOCAB] using hs)).1
        have hml : (mergeAt ps (scanPairs vocab ps).1).length = ps.length - 1 :=
          mergeAt_length ps (scanPairs vocab ps).1 (by omega)
        rw [ih (mergeAt ps (scanPairs vocab ps).1) (by omega), hml]
        have : ps.length - 1 - 1 = ps.length - 2 := by omega
        rw [this]
    · have h0 : ps.length - 1 = 0 := by omega
      rw [h0]
      simp only [mergeLoopF]
      rw [if_neg hlen]

/-- One unfolding of the completed merge loop. -/
theorem mergeLoop_step (h : 1 < parts.length) :
    mergeLoop vocab parts =
      if (scanPairs vocab parts).2 = NOT_IN_VOCAB then parts
      else mergeLoop vocab (mergeAt parts (scanPairs vocab parts).1) := by
  by_cases hs : (scanPairs vocab parts).2 = NOT_IN_VOCAB
  · rw [if_pos hs, mergeLoop]
    have hl : parts.length = (parts.length - 1) + 1 := by omega
    rw [hl]
    simp only [mergeLoopF]
    rw [if_pos h, if_pos hs]
  · rw [if_neg hs, mergeLoop, mergeLoop]
    have hm : (scanPairs vocab parts).1 < parts.length - 1 :=
      ((scanPairs_spec vocab parts).2.2 (by simpa [NOT_IN_VOCAB] using hs)).1
    have hml : (mergeAt parts (scanPairs vocab parts).1).length = parts.length - 1 :=
      mergeAt_length parts (scanPairs vocab parts).1 (by omega)
    have hl : parts.length = (parts.length - 1) + 1 := by omega
    rw [hml, hl]
    simp only [mergeLoopF]
    rw [if_pos h, if_neg hs]
    have h2 : parts.length - 1 + 1 - 1 = parts.length - 1 := by omega
    rw [h2]

end MergeLemmas

section NonnegLemmas

variable (vocab : Bstr → Option Int) (parts : List Bstr)

theorem pairPriority_nonneg_cases (i : Nat) :
    pairPriority (nonnegRestrict vocab) parts i = pairPriority vocab parts i ∨
    (pairPriority (nonnegRestrict vocab) parts i = -1 ∧
      pairPriority vocab parts i ≤ -1) := by
  simp only [pairPriority, nonnegRestrict]
  cases hv : vocab (parts.getD i [] ++ parts.getD (i + 1) []) with
  | none =>
    left
    rfl
  | some n =>
    by_cases hn : 0 ≤ n
    · left
      show (if 0 ≤ n then some n else none).getD NOT_IN_VOCAB = (some n).getD NOT_IN_VOCAB
      rw [if_pos hn]
    · right
      refine ⟨?_, ?_⟩
      · show (if 0 ≤ n then some n else none).getD NOT_IN_VOCAB = -1
        rw [if_neg hn]
        rfl
      · show n ≤ -1
        omega

theorem scanFold_nonneg :
    ∀ (l : List Nat) (acc : Nat × Int), -1 ≤ acc.2 →
      l.foldl (scanStep vocab parts) acc =
        l.foldl (scanStep (nonnegRestrict vocab) parts) acc ∧
      -1 ≤ (l.foldl (scanStep vocab parts) acc).2 := by
  intro l
  induction l with
  | nil => exact fun acc h => ⟨rfl, h⟩
  | cons i l ih =>
    intro acc h
    have hstep :
        scanStep vocab parts acc i = scanStep (nonnegRestrict vocab) parts acc i ∧
        -1 ≤ (scanStep vocab parts acc i).2 := by
      rcases pairPriority_nonneg_cases vocab parts i with heq | ⟨hr, hv⟩
      · rw [scanStep, scanStep, heq]
        by_cases hgt : pairPriority vocab parts i > acc.2
        · rw [if_pos hgt]
          exact ⟨rfl, by simp; omega⟩
        · rw [if_neg hgt]
          exact ⟨rfl, h⟩
      · rw [scanStep, scanStep, hr]
        rw [if_neg (show ¬pairPriority vocab parts i > acc.2 by omega),
          if_neg (show ¬(-1 : Int) > acc.2 by omega)]
        exact ⟨rfl, h⟩
    rw [List.foldl_cons, List.foldl_cons, ← hstep.1]
    exact ih (scanStep vocab parts acc i) hstep.2

theorem scanPairs_nonneg :
    scanPairs vocab parts = scanPairs (nonnegRestrict vocab) parts := by
  rw [scanPairs, scanPairs]
  exact (scanFold_nonneg vocab parts (List.range (parts.length - 1)) (0, NOT_IN_VOCAB)
    (by simp [NOT_IN_VOCAB])).1

theorem mergeLoopF_nonneg :
    ∀ (fuel : Nat) (ps : List Bstr),
      mergeLoopF vocab fuel ps = mergeLoopF (nonnegRestrict vocab) fuel ps := by
  intro fuel
  induction fuel with
  | zero => intro ps; rfl
  | succ fuel ih =>
    intro ps
    simp only [mergeLoopF]
    rw [← scanPairs_nonneg vocab ps, ih (mergeAt ps (scanPairs vocab ps).1)]

end NonnegLemmas

section KeyLemmas

variable (vocab : Bstr → Option Int)

theorem filterLoop_mem :
    ∀ (l : List Bstr) (p : Bstr), p ∈ filterLoop vocab l → (vocab p).isSome := by
  intro l
  induction l with
  | nil => intro p hp; simp [filterLoop] at hp
  | cons q rest ih =>
    intro p hp
    rw [filterLoop] at hp
    by_cases hq : (vocab q).isSome
    · rw [if_pos hq] at hp
      rcases List.mem_cons.mp hp with hqp | hrest
      · subst hqp; exact hq
      · exact ih p hrest
    · rw [if_neg hq] at hp
      exact ih p hp

theorem pairPriority_isSome (parts : List Bstr) (i : Nat)
    (h : pairPriority vocab parts i ≠ -1) :
    vocab (parts.getD i [] ++ parts.getD (i + 1) []) =
      some (pairPriority vocab parts i) := by
  rw [pairPriority]
  cases hv : vocab (parts.getD i [] ++ parts.getD (i + 1) []) with
  | none =>
    exact absurd (by rw [pairPriority, hv]; rfl) h
  | some n =>
    rfl

theorem mergeLoopF_keys :
    ∀ (fuel : Nat) (ps : List Bstr), (∀ p ∈ ps, (vocab p).isSome) →
      ∀ p ∈ mergeLoopF vocab fuel ps, (vocab p).isSome := by
  intro fuel
  induction fuel with
  | zero => exact fun ps h => h
  | succ fuel ih =>
    intro ps hps p hp
    rw [mergeLoopF] at hp
    by_cases hlen : 1 < ps.length
    · rw [if_pos hlen] at hp
      by_cases hs : (scanPairs vocab ps).2 = NOT_IN_VOCAB
      · rw [if_pos hs] at hp
        exact hps p hp
      · rw [if_neg hs] at hp
        refine ih (mergeAt ps (scanPairs vocab ps).1) ?_ p hp
        intro q hq
        rw [mergeAt] at hq
        rcases List.mem_append.mp hq with hq1 | hq2
        · rcases List.mem_append.mp hq1 with hqt | hqm
          · exact hps q (List.take_subset _ _ hqt)
          · have hq' : q = ps.getD (scanPairs vocab ps).1 [] ++
                ps.getD ((scanPairs vocab ps).1 + 1) [] := by
              simpa using hqm
            have hpri : pairPriority vocab ps (scanPairs vocab ps).1 =
                (scanPairs vocab ps).2 :=
              ((scanPairs_spec vocab ps).2.2 (by simpa [NOT_IN_VOCAB] using hs)).2.1
            have := pairPriority_isSome vocab ps (scanPairs vocab ps).1
              (by rw [hpri]; simpa [NOT_IN_VOCAB] using hs)
            rw [hq', this]
            rfl
        · exact hps q (List.drop_subset _ _ hq2)
    · rw [if_neg hlen] at hp
      exact hps p hp

theorem mergeLoop_keys (ps : List Bstr) (h : ∀ p ∈ ps, (vocab p).isSome) :
    ∀ p ∈ mergeLoop vocab ps, (vocab p).isSome :=
  mergeLoopF_keys vocab ps.length ps h

end KeyLemmas

section LengthLemmas

variable (vocab : Bstr → Option Int) (eow : Bstr)

theorem trimRev_length_le : ∀ l : List Bstr, (trimRev vocab eow l).length ≤ l.length := by
  intro l
  induction l with
  | nil => simp [trimRev]
  | cons p rest ih =>
    rw [trimRev]
    by_cases hp : (vocab (p ++ eow)).isSome
    · rw [if_pos hp]
    · rw [if_neg hp]
      simp
      omega

theorem trimLoop_length_le (parts : List Bstr) :
    (trimLoop vocab eow parts).length ≤ parts.length := by
  rw [trimLoop]
  have := trimRev_length_le vocab eow parts.reverse
  simpa using this

theorem filterLoop_length_le : ∀ l : List Bstr, (filterLoop vocab l).length ≤ l.length := by
  intro l
  induction l with
  | nil => simp [filterLoop]
  | cons p rest ih =>
    rw [filterLoop]
    by_cases hp : (vocab p).isSome
    · rw [if_pos hp]
      simpa using ih
    · rw [if_neg hp]
      simp
      omega

end LengthLemmas

theorem utf8_go_join :
    ∀ (fuel : Nat) (s : Bstr), s.length ≤ fuel → (utf8_go fuel s).flatten = s := by
  intro fuel
  induction fuel with
  | zero =>
    intro s h
    rw [List.eq_nil_of_length_eq_zero (Nat.le_zero.mp h)]
    rfl
  | succ fuel ih =>
    intro s h
    match s with
    | [] => rfl
    | b :: rest =>
      rw [utf8_go]
      by_cases hb : b < 0x80
      · rw [if_pos hb]
        rw [List.flatten_cons, ih rest (by simp at h; omega)]
        rfl
      · rw [if_neg hb]
        rw [List.flatten_cons,
          ih (rest.drop (charWidth b - 1)) (by simp [List.length_drop] at h ⊢; omega)]
        rw [List.cons_append, List.take_append_drop]

theorem buildIdx_some :
    ∀ (l : List String) (i : Nat) (w : String) (j : Nat), buildIdx l i w = some j →
      i ≤ j ∧ j < i + l.length ∧ l.get? (j - i) = some w := by
  intro l
  induction l with
  | nil =>
    intro i w j h
    simp [buildIdx] at h
  | cons t rest ih =>
    intro i w j h
    rw [buildIdx] at h
    cases hrec : buildIdx rest (i + 1) w with
    | some j2 =>
      rw [hrec] at h
      injection h with hj
      subst hj
      obtain ⟨h1, h2, h3⟩ := ih (i + 1) w j2 hrec
      refine ⟨by omega, by simp; omega, ?_⟩
      have hd : j2 - i = (j2 - (i + 1)) + 1 := by omega
      rw [hd, List.get?_cons_succ]
      exact h3
    | none =>
      rw [hrec] at h
      by_cases ht : t = w
      · rw [if_pos ht] at h
        cases h
        refine ⟨le_refl i, by simp, ?_⟩
        rw [Nat.sub_self, List.get?_cons_zero, ht]
      · rw [if_neg ht] at h
        exact absurd h (by simp)

theorem buildIdx_isSome :
    ∀ (l : List String) (i : Nat) (w : String), w ∈ l → (buildIdx l i w).isSome := by
  intro l
  induction l with
  | nil =>
    intro i w h
    simp at h
  | cons t rest ih =>
    intro i w h
    rw [buildIdx]
    cases hrec : buildIdx rest (i + 1) w with
    | some j => simp
    | none =>
      rcases List.mem_cons.mp h with he | hm
      · rw [if_pos he.symm]
        simp
      · have := ih (i + 1) w hm
        rw [hrec] at this
        simp at this

theorem pyIndex_eq (l : List String) (i : Int) :
    pyIndex l i =
      if 0 ≤ i ∧ i < (l.length : Int) then l.get? i.toNat
      else if -(l.length : Int) ≤ i ∧ i < 0 then l.get? (i + (l.length : Int)).toNat
      else none := by
  simp only [pyIndex]
  by_cases hneg : i < 0
  · rw [if_pos hneg]
    by_cases hrange : -(l.length : Int) ≤ i
    · rw [if_pos
          (show 0 ≤ i + (l.length : Int) ∧ i + (l.length : Int) < (l.length : Int) by
            constructor <;> omega),
        if_neg (show ¬(0 ≤ i ∧ i < (l.length : Int)) by omega),
        if_pos (show -(l.length : Int) ≤ i ∧ i < 0 from ⟨hrange, hneg⟩)]
    · rw [if_neg
          (show ¬(0 ≤ i + (l.length : Int) ∧ i + (l.length : Int) < (l.length : Int)) by
            omega),
        if_neg (show ¬(0 ≤ i ∧ i < (l.length : Int)) by omega),
        if_neg (show ¬(-(l.length : Int) ≤ i ∧ i < 0) by omega)]
  · rw [if_neg hneg]
    by_cases hlt : i < (l.length : Int)
    · rw [if_pos (show 0 ≤ i ∧ i < (l.length : Int) by constructor <;> omega),
        if_pos (show 0 ≤ i ∧ i < (l.length : Int) by constructor <;> omega)]
    · rw [if_neg (show ¬(0 ≤ i ∧ i < (l.length : Int)) by omega),
        if_neg (show ¬(-(l.length : Int) ≤ i ∧ i < 0) by omega),
        if_neg (show ¬(0 ≤ i ∧ i < (l.length : Int)) by omega)]

/-!
Claim theorems.
-/

/-- Claim C1: each iteration of the greedy merge loop considers every
adjacent pair and its priority (the table value of the concatenation, or
the sentinel -1 when absent): the scan result bounds every pair priority
from above; when it is not the sentinel it is attained at the selected
index and every earlier index has strictly smaller priority (leftmost
tie-break, strict greater-than comparison); when it is the sentinel the
loop stops without merging; otherwise the loop replaces the selected pair
by its concatenation, shrinking the part list by exactly one, and
continues. -/
theorem claim1_merge_step (vocab : Bstr → Option Int) (parts : List Bstr)
    (h : 1 < parts.length) :
    (-1 ≤ (scanPairs vocab parts).2) ∧
    (∀ i, i < parts.length - 1 →
      pairPriority vocab parts i ≤ (scanPairs vocab parts).2) ∧
    ((scanPairs vocab parts).2 ≠ -1 →
      (scanPairs vocab parts).1 < parts.length - 1 ∧
      pairPriority vocab parts (scanPairs vocab parts).1 = (scanPairs vocab parts).2 ∧
      ∀ j, j < (scanPairs vocab parts).1 →
        pairPriority vocab parts j < (scanPairs vocab parts).2) ∧
    ((scanPairs vocab parts).2 = -1 → mergeLoop vocab parts = parts) ∧
    ((scanPairs vocab parts).2 ≠ -1 →
      mergeLoop vocab parts = mergeLoop vocab (mergeAt parts (scanPairs vocab parts).1) ∧
      (mergeAt parts (scanPairs vocab parts).1).length + 1 = parts.length) := by
  obtain ⟨h1, h2, h3⟩ := scanPairs_spec vocab parts
  have hstep := mergeLoop_step vocab parts h
  refine ⟨h1, h2, h3, ?_, ?_⟩
  · intro hs
    rw [hstep, if_pos (by simpa [NOT_IN_VOCAB] using hs)]
  · intro hs
    have hm : (scanPairs vocab parts).1 < parts.length - 1 := (h3 hs).1
    refine ⟨?_, ?_⟩
    · rw [hstep, if_neg (by simpa [NOT_IN_VOCAB] using hs)]
    · have := mergeAt_length parts (scanPairs vocab parts).1 (by omega)
      omega

/-- Witness for claim C1 at the concrete input `["t", "h"]` with the
docstring table. -/
theorem claim1_merge_step_witness :
    1 < ([bs "t", bs "h"] : List Bstr).length ∧
    ((-1 ≤ (scanPairs exVocab [bs "t", bs "h"]).2) ∧
     (∀ i, i < ([bs "t", bs "h"] : List Bstr).length - 1 →
       pairPriority exVocab [bs "t", bs "h"] i ≤ (scanPairs exVocab [bs "t", bs "h"]).2) ∧
     ((scanPairs exVocab [bs "t", bs "h"]).2 ≠ -1 →
       (scanPairs exVocab [bs "t", bs "h"]).1 < ([bs "t", bs "h"] : List Bstr).length - 1 ∧
       pairPriority exVocab [bs "t", bs "h"] (scanPairs exVocab [bs "t", bs "h"]).1 =
         (scanPairs exVocab [bs "t", bs "h"]).2 ∧
       ∀ j, j < (scanPairs exVocab [bs "t", bs "h"]).1 →
         pairPriority exVocab [bs "t", bs "h"] j < (scanPairs exVocab [bs "t", bs "h"]).2) ∧
     ((scanPairs exVocab [bs "t", bs "h"]).2 = -1 →
       mergeLoop exVocab [bs "t", bs "h"] = [bs "t", bs "h"]) ∧
     ((scanPairs exVocab [bs "t", bs "h"]).2 ≠ -1 →
       mergeLoop exVocab [bs "t", bs "h"] =
         mergeLoop exVocab (mergeAt [bs "t", bs "h"] (scanPairs exVocab [bs "t", bs "h"]).1) ∧
       (mergeAt [bs "t", bs "h"] (scanPairs exVocab [bs "t", bs "h"]).1).length + 1 =
         ([bs "t", bs "h"] : List Bstr).length)) :=
  ⟨by decide, claim1_merge_step exVocab [bs "t", bs "h"] (by decide)⟩

/-- Claim C2 is false on the code: with the docstring table taken literally
(`i` at priority -1 and `ii` at -2) the merge loop can never select the
`ii` pair, so `tokenize(["iiiis"])` is not `["ii", "i", "is_EOW"]`. -/
theorem claim2_counterexample :
    tokenize exVocab exEow [bs "iiiis"] = [bs "i", bs "i", bs "i", bs "is_EOW"] ∧
    tokenize exVocab exEow [bs "iiiis"] ≠ [bs "ii", bs "i", bs "is_EOW"] :=
  ⟨by decide, by decide⟩

/-- Claim C2 amended: with that table, `tokenize(["iiiis"])` returns exactly
`["i", "i", "i", "is_EOW"]` — only the `is_EOW` merge fires, and the
negative-priority `ii` entry is never selected. -/
theorem claim2_amended :
    tokenize exVocab exEow [bs "iiiis"] = [bs "i", bs "i", bs "i", bs "is_EOW"] := by
  decide

/-- Claim C3: the merge loop never merges a pair whose concatenation has a
negative table value: the loop computes the same result when every
negative-priority entry is removed from the table, and whenever a merge is
selected the winning pair's table value is a non-negative entry. -/
theorem claim3_negative_ignored (vocab : Bstr → Option Int) (parts : List Bstr) :
    mergeLoop vocab parts = mergeLoop (nonnegRestrict vocab) parts ∧
    ((scanPairs vocab parts).2 ≠ -1 →
      0 ≤ (scanPairs vocab parts).2 ∧
      vocab (parts.getD (scanPairs vocab parts).1 [] ++
          parts.getD ((scanPairs vocab parts).1 + 1) []) =
        some (scanPairs vocab parts).2) := by
  constructor
  · rw [mergeLoop, mergeLoop]
    exact mergeLoopF_nonneg vocab parts.length parts
  · intro hs
    obtain ⟨h1, h2, h3⟩ := scanPairs_spec vocab parts
    obtain ⟨hm, hpri, -⟩ := h3 hs
    refine ⟨by omega, ?_⟩
    have hv := pairPriority_isSome vocab parts (scanPairs vocab parts).1
      (by rw [hpri]; exact hs)
    rw [hpri] at hv
    exact hv

/-- Witness for claim C3 at the concrete input `["t", "h"]` with the
docstring table, where the scan selects the pair `"th"` of priority 17. -/
theorem claim3_negative_ignored_witness :
    0 ≤ (scanPairs exVocab [bs "t", bs "h"]).2 ∧
    exVocab (([bs "t", bs "h"] : List Bstr).getD (scanPairs exVocab [bs "t", bs "h"]).1 [] ++
        ([bs "t", bs "h"] : List Bstr).getD ((scanPairs exVocab [bs "t", bs "h"]).1 + 1) []) =
      some (scanPairs exVocab [bs "t", bs "h"]).2 :=
  (claim3_negative_ignored exVocab [bs "t", bs "h"]).2 (by decide)

/-- Claim C4: the docstring example, with the table taken literally:
`tokenize(["hello", "world", "this", "is", "bpe"])` returns exactly
`["hello_EOW", "world_EOW", "th", "is_EOW", "is_EOW", "bpe_EOW"]`. -/
theorem claim4_docstring_example :
    tokenize exVocab exEow [bs "hello", bs "world", bs "this", bs "is", bs "bpe"] =
      [bs "hello_EOW", bs "world_EOW", bs "th", bs "is_EOW", bs "is_EOW", bs "bpe_EOW"] := by
  decide

/-- Claim C5 is false on the code for negative in-range ids: the source only
checks `value < len(self.vocab)`, so `lookup_words_1d([-1])` on vocabulary
`["a", "b", "c"]` emits the last token `"c"` (Python negative indexing),
while the claim's rule (`0 <= id < len` else unk fallback) would emit the
unk token `"a"`. -/
theorem claim5_counterexample :
    lookup_words_1d ["a", "b", "c"] 0 [-1] [] none = some ["c"] ∧
    lookup_words_1d_claim ["a", "b", "c"] 0 [-1] [] none = ["a"] ∧
    (some ["c"] : Option (List String)) ≠ some ["a"] := by
  refine ⟨by decide, by decide, by decide⟩

/-- Claim C5 amended: `lookup_words_1d` agrees everywhere with the per-id
rule of `lookup_words_1d_amended`: skip filtered ids; emit `tokens[id]` for
`0 <= id < len`; emit `tokens[id + len]` for `-len <= id < 0` (Python
negative indexing, no unk fallback); fail for `id < -len`; and only for
`id >= len` fall back to the replacement or the (Python-indexed) unk
token. -/
theorem claim5_amended (vocab : List String) (unk_idx : Int) (values : List Int)
    (filter_token_list : List Int) (possible_unk_token : Option String) :
    lookup_words_1d vocab unk_idx values filter_token_list possible_unk_token =
      lookup_words_1d_amended vocab unk_idx values filter_token_list possible_unk_token := by
  induction values with
  | nil => rfl
  | cons v rest ih =>
    simp only [lookup_words_1d, lookup_words_1d_amended]
    by_cases hf : list_membership v filter_token_list
    · rw [if_pos hf, if_pos hf, ih]
    · rw [if_neg hf, if_neg hf, ih]
      clear ih
      have hemit :
          (if v < (vocab.length : Int) then pyIndex vocab v
           else
             match possible_unk_token with
             | some u => some u
             | none => pyIndex vocab unk_idx) =
          (if 0 ≤ v ∧ v < (vocab.length : Int) then vocab.get? v.toNat
           else if -(vocab.length : Int) ≤ v ∧ v < 0 then
             vocab.get? (v + (vocab.length : Int)).toNat
           else if (vocab.length : Int) ≤ v then
             match possible_unk_token with
             | some u => some u
             | none =>
               if 0 ≤ unk_idx ∧ unk_idx < (vocab.length : Int) then vocab.get? unk_idx.toNat
               else if -(vocab.length : Int) ≤ unk_idx ∧ unk_idx < 0 then
                 vocab.get? (unk_idx + (vocab.length : Int)).toNat
               else none
           else none) := by
        by_cases hv : v < (vocab.length : Int)
        · rw [if_pos hv, pyIndex_eq, if_neg (show ¬(vocab.length : Int) ≤ v by omega)]
        · rw [if_neg hv,
            if_neg (show ¬(0 ≤ v ∧ v < (vocab.length : Int)) by omega),
            if_neg (show ¬(-(vocab.length : Int) ≤ v ∧ v < 0) by omega),
            if_pos (show (vocab.length : Int) ≤ v by omega)]
          cases possible_unk_token with
          | some u => rfl
          | none => rw [pyIndex_eq]
      rw [hemit]

/-- Claim C6: for a vocabulary built from a duplicate-free token list and
words all occurring in it, looking the words up as ids and back (empty
filter list, no replacement) recovers the words exactly. -/
theorem claim6_roundtrip (vocab_list : List String) (unk_idx : Int) (words : List String)
    (_hnodup : vocab_list.Nodup)
    (hmem : ∀ w ∈ words, w ∈ vocab_list) :
    lookup_words_1d vocab_list unk_idx (lookup_indices_1d vocab_list unk_idx words) [] none =
      some words := by
  revert hmem
  induction words with
  | nil =>
    intro _
    rfl
  | cons w rest ih =>
    intro hmem
    have hw : w ∈ vocab_list := hmem w (List.mem_cons_self w rest)
    have hsome := buildIdx_isSome vocab_list 0 w hw
    cases hj : buildIdx vocab_list 0 w with
    | none =>
      rw [hj] at hsome
      simp at hsome
    | some j =>
      obtain ⟨-, hlt, hget⟩ := buildIdx_some vocab_list 0 w j hj
      rw [Nat.sub_zero] at hget
      have hjlen : j < vocab_list.length := by omega
      have hind :
          lookup_indices_1d vocab_list unk_idx (w :: rest) =
            (j : Int) :: lookup_indices_1d vocab_list unk_idx rest := by
        simp only [lookup_indices_1d, List.map_cons, hj]
      rw [hind]
      simp only [lookup_words_1d]
      rw [if_neg (show ¬(list_membership (j : Int) [] = true) by simp [list_membership])]
      have hemit :
          (if (j : Int) < (vocab_list.length : Int) then pyIndex vocab_list (j : Int)
           else
             match (none : Option String) with
             | some u => some u
             | none => pyIndex vocab_list unk_idx) = some w := by
        rw [if_pos (show ((j : Int) : Int) < (vocab_list.length : Int) by exact_mod_cast hjlen),
          pyIndex_eq,
          if_pos (show (0 : Int) ≤ (j : Int) ∧ (j : Int) < (vocab_list.length : Int) by
            constructor
            · exact_mod_cast Nat.zero_le j
            · exact_mod_cast hjlen)]
        simpa using hget
      rw [hemit, ih (fun x hx => hmem x (List.mem_cons_of_mem w hx))]
      rfl

/-- Witness for claim C6 on the vocabulary `["a", "b", "c"]` and words
`["b", "a"]`. -/
theorem claim6_roundtrip_witness :
    (["a", "b", "c"] : List String).Nodup ∧
    (∀ w ∈ (["b", "a"] : List String), w ∈ (["a", "b", "c"] : List String)) ∧
    lookup_words_1d ["a", "b", "c"] 0 (lookup_indices_1d ["a", "b", "c"] 0 ["b", "a"]) [] none =
      some ["b", "a"] :=
  ⟨by decide, by decide, claim6_roundtrip ["a", "b", "c"] 0 ["b", "a"] (by decide) (by decide)⟩

/-- Claim C7: whenever `token + eow` is a key of the table, `bpe_token`
returns exactly the single-element list `[token + eow]` (whole-word fast
path). -/
theorem claim7_fast_path (vocab : Bstr → Option Int) (eow token : Bstr)
    (h : (vocab (token ++ eow)).isSome) :
    bpe_token vocab eow token = [token ++ eow] := by
  simp only [bpe_token]
  rw [if_pos h]

/-- Witness for claim C7: `"hello_EOW"` is a key of the docstring table. -/
theorem claim7_fast_path_witness :
    (exVocab (bs "hello" ++ exEow)).isSome ∧
    bpe_token exVocab exEow (bs "hello") = [bs "hello" ++ exEow] :=
  ⟨by decide, claim7_fast_path exVocab exEow (bs "hello") (by decide)⟩

/-- Claim C8: `bpe_token` terminates.  The greedy merge loop needs at most
`parts.length - 1` iterations: any fuel at least `parts.length - 1` computes
the loop's limit `mergeLoop`, since every merge shrinks the part list by
one and the loop requires more than one part.  The trim and removal loops
each make strict progress, so their outputs are no longer than their
inputs. -/
theorem claim8_termination (vocab : Bstr → Option Int) (eow : Bstr) (parts : List Bstr)
    (fuel : Nat) (h : parts.length - 1 ≤ fuel) :
    mergeLoopF vocab fuel parts = mergeLoop vocab parts ∧
    (trimLoop vocab eow parts).length ≤ parts.length ∧
    (filterLoop vocab parts).length ≤ parts.length := by
  refine ⟨?_, trimLoop_length_le vocab eow parts, filterLoop_length_le vocab parts⟩
  rw [mergeLoopF_fuel vocab fuel parts h, mergeLoop,
    mergeLoopF_fuel vocab parts.length parts (by omega)]

/-- Witness for claim C8 at the concrete parts `["t", "h"]` with fuel 1. -/
theorem claim8_termination_witness :
    ([bs "t", bs "h"] : List Bstr).length - 1 ≤ 1 ∧
    (mergeLoopF exVocab 1 [bs "t", bs "h"] = mergeLoop exVocab [bs "t", bs "h"] ∧
     (trimLoop exVocab exEow [bs "t", bs "h"]).length ≤ ([bs "t", bs "h"] : List Bstr).length ∧
     (filterLoop exVocab [bs "t", bs "h"]).length ≤ ([bs "t", bs "h"] : List Bstr).length) :=
  ⟨by decide, claim8_termination exVocab exEow [bs "t", bs "h"] 1 (by decide)⟩

/-- Claim C9: the character substrings returned by `utf8_chars` concatenate
back, in order, to the original string — no byte is dropped, duplicated
or reordered, for well-formed and malformed input alike — and the empty
string yields the empty sequence. -/
theorem claim9_utf8_join :
    utf8_chars ([] : Bstr) = [] ∧ ∀ s : Bstr, (utf8_chars s).flatten = s :=
  ⟨rfl, fun s => utf8_go_join s.length s (le_refl _)⟩

/-- Claim C10: every subword emitted by `bpe_token`, and hence by
`tokenize`, is a key of the priority table: the fast-path result is a key
by the guard, the removal pass keeps only keys, and each merge introduces
only a concatenation the table maps to the selected (non-sentinel)
priority. -/
theorem claim10_output_keys (vocab : Bstr → Option Int) (eow : Bstr) :
    (∀ token p, p ∈ bpe_token vocab eow token → (vocab p).isSome) ∧
    (∀ tokens p, p ∈ tokenize vocab eow tokens → (vocab p).isSome) := by
  have hbpe : ∀ token p, p ∈ bpe_token vocab eow token → (vocab p).isSome := by
    intro token p hp
    simp only [bpe_token] at hp
    by_cases hfull : (vocab (token ++ eow)).isSome
    · rw [if_pos hfull] at hp
      have : p = token ++ eow := by simpa using hp
      rw [this]
      exact hfull
    · rw [if_neg hfull] at hp
      by_cases hnil : trimLoop vocab eow (utf8_chars token) = []
      · rw [if_pos hnil, hnil] at hp
        simp at hp
      · rw [if_neg hnil] at hp
        exact mergeLoop_keys vocab _ (fun q hq => filterLoop_mem vocab _ q hq) p hp
  refine ⟨hbpe, ?_⟩
  intro tokens p hp
  simp only [tokenize, List.mem_flatten, List.mem_map] at hp
  obtain ⟨l, ⟨token, -, rfl⟩, hpl⟩ := hp
  exact hbpe token p hpl

/-- Witness for claim C10: tokenizing `"this"` emits `"th"`, which is a key
of the docstring table. -/
theorem claim10_output_keys_witness : (exVocab (bs "th")).isSome :=
  (claim10_output_keys exVocab exEow).1 (bs "this") (bs "th") (by decide)

end Pytext
